import Mathlib

/-
Verification development for the latex statistics tool (src/latex.py, src/server.py).

The Python code is shallowly embedded: every definition below models one
function or expression of the source, with the source location given in its
doc comment.  Python dicts are modelled as association lists with the exact
CPython semantics: assigning to an existing key keeps its position and
replaces its value, assigning to a fresh key appends it.  The recursion of
Tree.generate_tree descends one numbering level per call, so its depth is
bounded by the maximal dot count of any record; we make that bound explicit
as a fuel argument.
-/

namespace LatexStats

/-! ## Python string primitives -/

/-- Model of Python `a.startswith(b)`, over the code-point sequences of the
two strings. -/
def pyStartsWith (a b : String) : Bool :=
  b.data.isPrefixOf a.data

/-- `pyHasInfix l pat` models Python `pat in l` (substring containment). -/
def pyHasInfix (l pat : List Char) : Bool :=
  match l with
  | [] => pat.isEmpty
  | _ :: t => pat.isPrefixOf l || pyHasInfix t pat

/-- Model of Python `s.count('.')`: the number of `'.'` characters of `s`. -/
def pyCountDots (s : String) : Nat :=
  s.data.count '.'

/-- Model of Python `len(s.split())`: the number of maximal runs of
non-whitespace characters of `s`. -/
def pyWordCount (s : String) : Nat :=
  (s.data.foldl
    (fun (st : Bool × Nat) c =>
      if c.isWhitespace then (false, st.2)
      else if st.1 then st else (true, st.2 + 1))
    (false, 0)).2

/-! ## Python dict as an association list -/

/-- `dictHasKey d k`: whether key `k` is present. -/
def dictHasKey {α : Type} (d : List (String × α)) (k : String) : Bool :=
  d.any (fun kv => kv.1 == k)

/-- Model of Python `d[k] = v`: replace in place if the key exists
(keeping its position), otherwise append. -/
def dictUpd {α : Type} (d : List (String × α)) (k : String) (v : α) :
    List (String × α) :=
  if dictHasKey d k then d.map (fun kv => if kv.1 == k then (k, v) else kv)
  else d ++ [(k, v)]

/-- Model of Python `d[k]` returning `none` for a `KeyError`. -/
def dictFind {α : Type} (d : List (String × α)) (k : String) : Option α :=
  match d with
  | [] => none
  | kv :: rest => if kv.1 = k then some kv.2 else dictFind rest k

/-! ## Outline records (the tuples produced by `Parser` on `main.toc`)

A table-of-content entry is the regex group tuple
`(kind, number, caption, page)` -- src/latex.py lines 53-55, 462. -/

structure Record where
  kind : String
  number : String
  caption : String
  page : Nat
deriving DecidableEq, Repr

/-- `Tree._get_level` (src/latex.py line 361): `item[1].count('.')`. -/
def level (r : Record) : Nat := pyCountDots r.number

/-- `Tree._is_chapter` (line 365): `item[0] == 'chapter'`. -/
def isChapter (r : Record) : Bool := r.kind == "chapter"

/-- `Tree._is_descendant` (line 366): plain string `startswith`. -/
def isDescendant (item cand : Record) : Bool :=
  pyStartsWith cand.number item.number

/-- `Tree._is_next_generation` (line 367). -/
def isNextGeneration (item cand : Record) : Bool :=
  level cand == level item + 1

/-- `Tree._is_child_of_item` (line 368). -/
def isChildOfItem (item cand : Record) : Bool :=
  isDescendant item cand && isNextGeneration item cand

/-- `Tree._is_child` (line 369): roots are the chapter records. -/
def isChild (item : Option Record) (cand : Record) : Bool :=
  match item with
  | none => isChapter cand
  | some it => isChildOfItem it cand

/-- `Tree.get_children` (lines 387-393). -/
def getChildren (toc : List Record) (node : Option Record) : List Record :=
  toc.filter (fun item => isChild node item)

/-! ## The nested-dict tree of `Tree.generate_tree` -/

/-- The nested dict `{number: subtree}` built by `Tree.generate_tree`. -/
inductive TocTree where
  | mk (children : List (String × TocTree))

/-- The key/subtree pairs of a tree node, in dict (insertion) order. -/
def TocTree.children : TocTree → List (String × TocTree)
  | .mk cs => cs

/-- One level of `Tree.generate_tree` (lines 395-407): for each child of
`node`, in input order, assign `tree[number] = subtree`.  The recursion of
the source descends one numbering level per call; `fuel` bounds that depth
and is instantiated at a value larger than any level in the input, so the
`fuel = 0` base case is never reached from `generate_tree`. -/
def buildAux (toc : List Record) : Nat → Option Record → TocTree
  | 0, _ => .mk []
  | fuel + 1, node =>
      .mk ((getChildren toc node).foldl
        (fun acc c => dictUpd acc c.number (buildAux toc fuel (some c))) [])

/-- The largest dot count among the records (0 for an empty list). -/
def maxLevel (toc : List Record) : Nat :=
  (toc.map level).foldr max 0

/-- Recursion-depth bound used to run the tree construction to completion. -/
def treeFuel (toc : List Record) : Nat := maxLevel toc + 2

/-- `Tree.generate_tree` applied to the full record list, starting from the
roots (`current_node=None`) and an empty dict. -/
def generate_tree (toc : List Record) : TocTree :=
  buildAux toc (treeFuel toc) none

/-- The `self.number_of_nodes += 1` counter of `generate_tree`
(lines 357, 405): one increment per assignment `tree[number] = {}`. -/
def countAux (toc : List Record) : Nat → Option Record → Nat
  | 0, _ => 0
  | fuel + 1, node =>
      (getChildren toc node).foldl
        (fun acc c => acc + 1 + countAux toc fuel (some c)) 0

/-- `Tree.__len__` (lines 384-385): the node counter after construction. -/
def countTree (toc : List Record) : Nat :=
  countAux toc (treeFuel toc) none

/-- The parent/child key pairs below a node whose key is `parent`. -/
def edgesUnder : Nat → String → TocTree → List (String × String)
  | 0, _, _ => []
  | fuel + 1, parent, t =>
      t.children.flatMap (fun kv => (parent, kv.1) :: edgesUnder fuel kv.1 kv.2)

/-- All parent/child key pairs of the built tree. -/
def treeEdges (toc : List Record) : List (String × String) :=
  (generate_tree toc).children.flatMap
    (fun kv => edgesUnder (treeFuel toc) kv.1 kv.2)

/-- The top-level keys of the built tree (the roots). -/
def rootKeys (toc : List Record) : List String :=
  (generate_tree toc).children.map (fun kv => kv.1)

/-- `Tree.get_tree` (lines 422-430) with the dict lookups split off: the
`(level, number)` pairs in traversal order (keys in dict order, a node
before its subtree). -/
def getTreeAux : Nat → TocTree → Nat → List (Nat × String)
  | 0, _, _ => []
  | fuel + 1, t, lvl =>
      t.children.flatMap (fun kv =>
        (lvl, kv.1) ::
          (if kv.2.children.isEmpty then [] else getTreeAux fuel kv.2 (lvl + 1)))

/-- Traversal of the built tree, from level 0. -/
def treeWalk (toc : List Record) : List (Nat × String) :=
  getTreeAux (treeFuel toc) (generate_tree toc) 0

/-! ## WordCounter (src/latex.py lines 163-211) -/

/-- The fixed marker list of `WordCounter.count_words` (line 202). -/
def skipterms : List String :=
  ["$$", "\x7balign", "\x7bequation\x7d", "\x7bfigure\x7d", "\x7btable\x7d"]

/-- `any(map(lambda term: term in line, skipterms))` (line 205). -/
def lineHasMarker (line : String) : Bool :=
  skipterms.any (fun term => pyHasInfix line.data term.data)

/-- The loop body of `WordCounter.count_words` (lines 204-210): a marker
line toggles `skip_line` before the flag is tested, and a line read with
the flag clear adds `len(line.split())` words. -/
def countWordsGo : List String → Bool → Nat → Nat
  | [], _, acc => acc
  | l :: ls, skip, acc =>
      let skip2 := if lineHasMarker l then !skip else skip
      countWordsGo ls skip2 (if skip2 then acc else acc + pyWordCount l)

/-- `WordCounter.count_words` (lines 200-211) on the file's lines. -/
def count_words (lines : List String) : Nat :=
  countWordsGo lines false 0

/-- One parsed chapter file, as consumed by `count_all_words`: its name,
the caption extracted by the external `DirParser` (`entries[0][0]`,
line 195), and its lines. -/
structure ChapterFile where
  filename : String
  caption : String
  lines : List String

/-- The state built by `WordCounter` (lines 180-181): the dict
`caption -> (file, words)` and the running maximum `maxwords`. -/
structure WCResult where
  entries : List (String × String × Nat)
  maxwords : Int
deriving Repr, DecidableEq

/-- The loop of `WordCounter.count_all_words` (lines 193-197): per file,
keep `maxwords = words if words > maxwords else maxwords` and assign
`result[caption] = (file, words)`. -/
def countAllWordsGo : List ChapterFile → WCResult → WCResult
  | [], acc => acc
  | f :: fs, acc =>
      let w := count_words f.lines
      countAllWordsGo fs
        { entries := dictUpd acc.entries f.caption (f.filename, w),
          maxwords := if (w : Int) > acc.maxwords then (w : Int) else acc.maxwords }

/-- `WordCounter.count_all_words` (lines 186-198), with `maxwords`
initially `-1` (line 180). -/
def count_all_words (files : List ChapterFile) : WCResult :=
  countAllWordsGo files { entries := [], maxwords := -1 }

/-! ## IEEE double model for `int(words / maxwords * 50)` (line 418)

CPython evaluates `words / maxwords * 50` in IEEE-754 binary64: the true
division and the product are each rounded to the nearest double (ties to
even), and `int` truncates toward zero.  We model binary64 rounding on
exact rationals for arguments in the normal range, which covers every
value this program can produce. -/

/-- Round a rational to the nearest integer, ties to even. -/
def rne (q : ℚ) : ℤ :=
  if q - ⌊q⌋ < 1 / 2 then ⌊q⌋
  else if 1 / 2 < q - ⌊q⌋ then ⌊q⌋ + 1
  else if ⌊q⌋ % 2 = 0 then ⌊q⌋ else ⌊q⌋ + 1

/-- Round a positive rational to the nearest IEEE binary64 value:
scale into the binade `[2^e, 2^(e+1))`, round the 53-bit significand to
nearest (ties to even), and scale back.  Faithful for arguments in the
normal finite range of binary64. -/
def flPos (q : ℚ) : ℚ :=
  (rne (q * 2 ^ (52 - Int.log 2 q)) : ℚ) * 2 ^ (Int.log 2 q - 52)

/-- Round any rational to the nearest binary64 value (sign-symmetric). -/
def flD (q : ℚ) : ℚ :=
  if q = 0 then 0 else if 0 < q then flPos q else -flPos (-q)

/-- Python `int()` applied to a real value: truncation toward zero. -/
def truncQ (q : ℚ) : ℤ :=
  if 0 ≤ q then ⌊q⌋ else -⌊-q⌋

/-- The value of `int(words / maxwords * 50)` (line 418) in binary64
arithmetic: divide, round; multiply by the exact constant 50, round;
truncate. -/
def pyPercent (words : ℕ) (maxwords : ℤ) : ℤ :=
  truncQ (flD (flD ((words : ℚ) / (maxwords : ℚ)) * 50))

/-! ## The lookup table of `Tree.generate_lut` (lines 409-420) -/

/-- The tuple `(number, caption, page, words, percent)` stored in the lut. -/
structure Entry where
  number : String
  caption : String
  page : Nat
  words : Nat
  percent : ℤ
deriving DecidableEq, Repr

/-- The loop of `Tree.generate_lut` (lines 414-419).  `self.wc[caption]`
raises `KeyError` when the caption has no word-count entry
(`WordCounter.__getitem__`, lines 183-184), and the division raises
`ZeroDivisionError` when `maxwords = 0`; both abort the construction and
are modelled as `none`. -/
def generateLutGo (wcEntries : List (String × String × Nat)) (maxwords : Int) :
    List Record → List (String × Entry) → Option (List (String × Entry))
  | [], lut => some lut
  | r :: rest, lut =>
      match dictFind wcEntries r.caption with
      | none => none
      | some fw =>
          if maxwords = 0 then none
          else generateLutGo wcEntries maxwords rest
            (dictUpd lut r.number
              ⟨r.number, r.caption, r.page, fw.2, pyPercent fw.2 maxwords⟩)

/-- `Tree.generate_lut` (lines 409-420) starting from an empty dict. -/
def generate_lut (wcEntries : List (String × String × Nat)) (maxwords : Int)
    (toc : List Record) : Option (List (String × Entry)) :=
  generateLutGo wcEntries maxwords toc []

/-! ## Tree iteration and DiffTree (lines 381-382, 422-455) -/

/-- Run an option-valued function over a list, failing at the first
failure (the behaviour of an exception inside a Python loop). -/
def mapOpt {α β : Type} (f : α → Option β) : List α → Option (List β)
  | [] => some []
  | a :: l =>
      match f a with
      | none => none
      | some b => (mapOpt f l).map (fun bs => b :: bs)

/-- One step of `Tree.get_tree` (line 428): yield `(level, *self.lut[number])`;
a missing lut key is a `KeyError`. -/
def treeStep (lut : List (String × Entry)) (ln : Nat × String) :
    Option (Nat × Entry) :=
  (dictFind lut ln.2).map (fun e => (ln.1, e))

/-- `Tree.__iter__` / `Tree.get_tree` (lines 381-382, 422-430). -/
def tree_iter (lut : List (String × Entry)) (walk : List (Nat × String)) :
    Option (List (Nat × Entry)) :=
  mapOpt (treeStep lut) walk

/-- One value yielded by `DiffTree.__iter__` (lines 448-455): a plain
6-tuple when `diff is None`, an 8-tuple with the baseline's words and
percent otherwise. -/
inductive DiffOut where
  | plain (lvl : Nat) (e : Entry)
  | diffed (lvl : Nat) (e : Entry) (oldwords : Nat) (oldpercent : ℤ)
deriving DecidableEq, Repr

/-- One step of `DiffTree.__iter__` (lines 449-455): unpack the node's lut
tuple; when a baseline is present, look its lut up at the node's number
and attach `oldwords = diff.lut[number][3]` and
`oldpercent = diff.lut[number][4]`. -/
def diffStep (lut : List (String × Entry)) (diff : Option (List (String × Entry)))
    (ln : Nat × String) : Option DiffOut :=
  match dictFind lut ln.2 with
  | none => none
  | some e =>
      match diff with
      | none => some (.plain ln.1 e)
      | some dl =>
          match dictFind dl e.number with
          | none => none
          | some old => some (.diffed ln.1 e old.words old.percent)

/-- `DiffTree.__iter__` (lines 448-455): walk the current tree, emitting
one value per node. -/
def diff_iter (lut : List (String × Entry)) (diff : Option (List (String × Entry)))
    (walk : List (Nat × String)) : Option (List DiffOut) :=
  mapOpt (diffStep lut diff) walk

/-! ## ConsistencySets (src/latex.py lines 465-474) -/

/-- `Statistics._compute_used_references` (line 471). -/
def compute_used_references (refs cits : Finset String) : Finset String :=
  refs ∩ cits

/-- `Statistics._compute_unused_references` (line 472). -/
def compute_unused_references (refs cits : Finset String) : Finset String :=
  refs \ compute_used_references refs cits

/-- `Statistics._compute_undefined_references` (line 473). -/
def compute_undefined_references (refs cits : Finset String) : Finset String :=
  cits \ compute_used_references refs cits

/-- `Statistics._compute_unused_figures` (line 474). -/
def compute_unused_figures (avail used : Finset String) : Finset String :=
  avail \ used

/-! ## Daily snapshot guard (src/latex.py lines 49-50, 504-517)

The filesystem is modelled as an association list from paths to snapshot
contents; `pickle` serialization is opaque here. -/

/-- `DATAFILE` (lines 49-50): the snapshot path derived from the date. -/
def DATAFILE (date : String) : String :=
  "./snapshot-" ++ date ++ ".pkl"

/-- `Statistics.backup` (lines 508-517): write the snapshot value at the
given path (creating or overwriting the file). -/
def backup {α : Type} (fs : List (String × α)) (path : String) (snap : α) :
    List (String × α) :=
  dictUpd fs path snap

/-- `Statistics.backup_first_start_of_day` (lines 504-506): write today's
snapshot only if `os.path.isfile(DATAFILE)` is false. -/
def backup_first_start_of_day {α : Type} (fs : List (String × α))
    (date : String) (snap : α) : List (String × α) :=
  if dictHasKey fs (DATAFILE date) then fs else backup fs (DATAFILE date) snap

/-! ## The command listener (src/server.py lines 35-58) -/

/-- What one dispatch of `StatsServer.handle_request` does with a decoded
command: invoke one `Statistics` operation, or print an unknown-command
message with no core effect. -/
inductive ServerAction where
  | printToc
  | printListOfTables
  | printListOfFigures
  | printUnusedReferences
  | printUnusedFigures
  | printUndefinedReferences
  | doBackup
  | unknown (msg : String)
deriving DecidableEq, Repr

/-- The `if data == ... elif ... else` chain of `handle_request`
(lines 42-57). -/
def handle_command (data : String) : ServerAction :=
  if data = "toc" then .printToc
  else if data = "lot" then .printListOfTables
  else if data = "lof" then .printListOfFigures
  else if data = "unu" ∨ data = "unu refs" then .printUnusedReferences
  else if data = "unu figs" then .printUnusedFigures
  else if data = "und" then .printUndefinedReferences
  else if data = "backup" then .doBackup
  else .unknown ("Unknown command: " ++ data)

/-- The `while True` receive loop of `handle_request` (lines 36-58): each
received message is dispatched and the loop continues; an empty receive
breaks the loop and closes the socket. -/
def handle_request : List String → List ServerAction
  | [] => []
  | d :: rest => if d = "" then [] else handle_command d :: handle_request rest

/-- The command strings recognised by the listener. -/
def knownCommands : List String :=
  ["toc", "lot", "lof", "unu", "unu refs", "unu figs", "und", "backup"]

/-! ## Helper lemmas about the dict model -/

theorem dictUpd_mem {α : Type} {d : List (String × α)} {k : String} {v : α}
    {kv : String × α} (h : kv ∈ dictUpd d k v) : kv = (k, v) ∨ kv ∈ d := by
  unfold dictUpd at h
  split at h
  · rcases List.mem_map.1 h with ⟨kv', hkv', he⟩
    by_cases hk : kv'.1 == k
    · rw [if_pos hk] at he
      exact Or.inl he.symm
    · rw [if_neg hk] at he
      exact Or.inr (he ▸ hkv')
  · rcases List.mem_append.1 h with h' | h'
    · exact Or.inr h'
    · exact Or.inl (by simpa using h')

theorem dictHasKey_dictUpd_self {α : Type} (d : List (String × α)) (k : String)
    (v : α) : dictHasKey (dictUpd d k v) k = true := by
  unfold dictUpd
  split
  · rename_i hd
    unfold dictHasKey at hd ⊢
    rcases List.any_eq_true.1 hd with ⟨kv, hkv, he⟩
    exact List.any_eq_true.2 ⟨(k, v), List.mem_map.2 ⟨kv, hkv, by simp [he]⟩, by simp⟩
  · unfold dictHasKey
    exact List.any_eq_true.2 ⟨(k, v), List.mem_append_right _ (by simp), by simp⟩

theorem dictHasKey_dictUpd_of {α : Type} {d : List (String × α)} {k' k : String}
    (v : α) (h : dictHasKey d k' = true) :
    dictHasKey (dictUpd d k v) k' = true := by
  unfold dictHasKey at h
  rcases List.any_eq_true.1 h with ⟨kv, hkv, he⟩
  unfold dictUpd
  split
  · unfold dictHasKey
    refine List.any_eq_true.2 ⟨if kv.1 == k then (k, v) else kv,
      List.mem_map.2 ⟨kv, hkv, rfl⟩, ?_⟩
    by_cases hk : kv.1 == k
    · rw [if_pos hk]
      have h1 : kv.1 = k' := by simpa using he
      have h2 : kv.1 = k := by simpa using hk
      simp [← h1, h2]
    · rw [if_neg hk]
      exact he
  · unfold dictHasKey
    exact List.any_eq_true.2 ⟨kv, List.mem_append_left _ hkv, he⟩

theorem dictFind_mem {α : Type} {d : List (String × α)} {k : String} {v : α}
    (h : dictFind d k = some v) : (k, v) ∈ d := by
  induction d with
  | nil => simp [dictFind] at h
  | cons kv rest ih =>
      unfold dictFind at h
      split at h
      · rename_i he
        cases h
        exact he ▸ List.mem_cons_self _ _
      · exact List.mem_cons_of_mem _ (ih h)

theorem dictHasKey_iff_find {α : Type} (d : List (String × α)) (k : String) :
    dictHasKey d k = true ↔ ∃ v, dictFind d k = some v := by
  induction d with
  | nil => simp [dictHasKey, dictFind]
  | cons kv rest ih =>
      by_cases hk : kv.1 = k
      · simp [dictHasKey, dictFind, hk]
      · have hb : (kv.1 == k) = false := by simpa using hk
        simp only [dictHasKey, List.any_cons, hb, Bool.false_or, dictFind, if_neg hk]
        exact ih

/-! ## C7: consistency-set algebra -/

/-- C7: the computed unused figures are `available - used`, the unused
references are `declared - (declared ∩ cited)`, the undefined references
are `cited - (declared ∩ cited)`; consequently the unused figures are
disjoint from the used ones, the unused references together with the
intersection give back the declared references, and the undefined
references are disjoint from the declared ones. -/
theorem c7_consistency_sets (refs cits avail used : Finset String) :
    compute_unused_figures avail used = avail \ used ∧
    compute_unused_references refs cits = refs \ (refs ∩ cits) ∧
    compute_undefined_references refs cits = cits \ (refs ∩ cits) ∧
    compute_unused_figures avail used ∩ used = ∅ ∧
    compute_unused_references refs cits ∪ (refs ∩ cits) = refs ∧
    compute_undefined_references refs cits ∩ refs = ∅ := by
  refine ⟨rfl, rfl, rfl, ?_, ?_, ?_⟩
  · ext x
    simp only [compute_unused_figures, Finset.mem_inter, Finset.mem_sdiff,
      Finset.not_mem_empty, iff_false]
    tauto
  · exact Finset.sdiff_union_of_subset Finset.inter_subset_left
  · ext x
    simp only [compute_undefined_references, compute_used_references,
      Finset.mem_inter, Finset.mem_sdiff, Finset.not_mem_empty, iff_false]
    tauto

/-! ## C8: the daily-snapshot guard -/

/-- C8: `backup_first_start_of_day` writes today's snapshot only when no
file for today's date exists; whenever the file is already present the
filesystem is returned unchanged (the snapshot is never overwritten or
mutated), and when it is absent the snapshot is appended without touching
any other file. -/
theorem c8_snapshot_guard {α : Type} (fs : List (String × α)) (date : String)
    (snap : α) :
    (dictHasKey fs (DATAFILE date) = true →
      backup_first_start_of_day fs date snap = fs) ∧
    (dictHasKey fs (DATAFILE date) = false →
      backup_first_start_of_day fs date snap = fs ++ [(DATAFILE date, snap)]) := by
  constructor
  · intro h
    simp [backup_first_start_of_day, h]
  · intro h
    simp [backup_first_start_of_day, backup, dictUpd, h]

/-- Concrete run of the guard: a present snapshot is kept untouched, an
absent one is created. -/
theorem c8_snapshot_guard_witness :
    (backup_first_start_of_day [(DATAFILE "2026-10-12", (7 : Nat))] "2026-10-12" 9
      = [(DATAFILE "2026-10-12", 7)]) ∧
    (backup_first_start_of_day ([] : List (String × Nat)) "2026-10-12" 9
      = [(DATAFILE "2026-10-12", 9)]) :=
  ⟨(c8_snapshot_guard [(DATAFILE "2026-10-12", (7 : Nat))] "2026-10-12" 9).1
      (by decide),
   (c8_snapshot_guard ([] : List (String × Nat)) "2026-10-12" 9).2 (by decide)⟩

/-! ## C9: unknown commands in the listener -/

/-- C9: any received command outside the recognised set produces the
explicit plain-text `Unknown command` response, triggers no `Statistics`
operation, and the receive loop keeps running on the same connection. -/
theorem c9_unknown_command (d : String) (rest : List String)
    (hknown : d ∉ knownCommands) (hne : d ≠ "") :
    handle_command d = .unknown ("Unknown command: " ++ d) ∧
    handle_request (d :: rest)
      = .unknown ("Unknown command: " ++ d) :: handle_request rest := by
  simp only [knownCommands, List.mem_cons, List.not_mem_nil, or_false,
    not_or] at hknown
  obtain ⟨h1, h2, h3, h4, h5, h6, h7, h8⟩ := hknown
  have hc : handle_command d = .unknown ("Unknown command: " ++ d) := by
    simp [handle_command, h1, h2, h3, h4, h5, h6, h7, h8]
  exact ⟨hc, by simp [handle_request, hne, hc]⟩

/-- Concrete run of the listener on an unrecognised command. -/
theorem c9_unknown_command_witness :
    handle_command "status" = .unknown ("Unknown command: " ++ "status") ∧
    handle_request ("status" :: ["toc"])
      = .unknown ("Unknown command: " ++ "status") :: handle_request ["toc"] :=
  c9_unknown_command "status" ["toc"] (by decide) (by decide)

/-! ## C10: a caption without a word-count entry aborts the construction -/

theorem generateLutGo_missing {wcE : List (String × String × Nat)} {maxw : Int}
    {toc : List Record} (h : ∃ r ∈ toc, dictFind wcE r.caption = none) :
    ∀ lut, generateLutGo wcE maxw toc lut = none := by
  induction toc with
  | nil => simp at h
  | cons r rest ih =>
      intro lut
      rcases h with ⟨r', hr', hfind⟩
      rcases List.mem_cons.1 hr' with rfl | hmem
      · simp [generateLutGo, hfind]
      · unfold generateLutGo
        cases hf : dictFind wcE r.caption with
        | none => rfl
        | some fw =>
            by_cases hz : maxw = 0
            · simp [hz]
            · simp only [if_neg hz]
              exact ih ⟨r', hmem, hfind⟩ _

/-- C10: when some outline record's caption is not a key of the word-count
mapping, `Tree.generate_lut` raises the lookup error (`none` here) rather
than substituting zero words, so the tree construction fails. -/
theorem c10_missing_caption (wcE : List (String × String × Nat)) (maxw : Int)
    (toc : List Record) (h : ∃ r ∈ toc, dictFind wcE r.caption = none) :
    generate_lut wcE maxw toc = none :=
  generateLutGo_missing h []

/-- Concrete run: a record whose caption has no word-count entry makes the
whole lookup-table construction fail. -/
theorem c10_missing_caption_witness :
    generate_lut [("Intro", "intro.tex", 12)] 12
      [⟨"chapter", "1", "Results", 1⟩] = none :=
  c10_missing_caption _ _ _ ⟨⟨"chapter", "1", "Results", 1⟩, by decide, by decide⟩

/-! ## C4: word counting with block exclusion -/

/-- The total token count of a list of lines. -/
def sumWords (lines : List String) : Nat :=
  (lines.map pyWordCount).sum

theorem countWordsGo_cons (l : String) (ls : List String) (skip : Bool) (acc : Nat) :
    countWordsGo (l :: ls) skip acc =
      countWordsGo ls (if lineHasMarker l then !skip else skip)
        (if (if lineHasMarker l then !skip else skip) = true then acc
         else acc + pyWordCount l) := rfl

theorem countWordsGo_plain {l : String} (hl : lineHasMarker l = false)
    (ls : List String) (acc : Nat) :
    countWordsGo (l :: ls) false acc = countWordsGo ls false (acc + pyWordCount l) := by
  rw [countWordsGo_cons, hl]
  simp

theorem countWordsGo_hidden {l : String} (hl : lineHasMarker l = false)
    (ls : List String) (acc : Nat) :
    countWordsGo (l :: ls) true acc = countWordsGo ls true acc := by
  rw [countWordsGo_cons, hl]
  simp

theorem countWordsGo_marker_on {m : String} (hm : lineHasMarker m = true)
    (ls : List String) (acc : Nat) :
    countWordsGo (m :: ls) false acc = countWordsGo ls true acc := by
  rw [countWordsGo_cons, hm]
  simp

theorem countWordsGo_marker_off {m : String} (hm : lineHasMarker m = true)
    (ls : List String) (acc : Nat) :
    countWordsGo (m :: ls) true acc = countWordsGo ls false (acc + pyWordCount m) := by
  rw [countWordsGo_cons, hm]
  simp

theorem countWordsGo_acc (lines : List String) :
    ∀ (skip : Bool) (acc : Nat),
      countWordsGo lines skip acc = acc + countWordsGo lines skip 0 := by
  induction lines with
  | nil => intro skip acc; rfl
  | cons l ls ih =>
      intro skip acc
      rw [countWordsGo_cons, countWordsGo_cons]
      by_cases h : (if lineHasMarker l then !skip else skip) = true
      · rw [if_pos h, if_pos h]
        exact ih _ acc
      · rw [if_neg h, if_neg h, ih _ (acc + pyWordCount l), ih _ (0 + pyWordCount l)]
        omega

theorem countWordsGo_clean {pre : List String}
    (hpre : ∀ l ∈ pre, lineHasMarker l = false) (ys : List String) (acc : Nat) :
    countWordsGo (pre ++ ys) false acc = countWordsGo ys false (acc + sumWords pre) := by
  induction pre generalizing acc with
  | nil => simp [sumWords]
  | cons l ls ih =>
      have hl : lineHasMarker l = false := hpre l (List.mem_cons_self _ _)
      have hls : ∀ x ∈ ls, lineHasMarker x = false :=
        fun x hx => hpre x (List.mem_cons_of_mem _ hx)
      rw [List.cons_append, countWordsGo_plain hl, ih hls]
      have harg : acc + pyWordCount l + sumWords ls = acc + sumWords (l :: ls) := by
        simp only [sumWords, List.map_cons, List.sum_cons]
        omega
      rw [harg]

theorem countWordsGo_skipped {mid : List String}
    (hmid : ∀ l ∈ mid, lineHasMarker l = false) (ys : List String) (acc : Nat) :
    countWordsGo (mid ++ ys) true acc = countWordsGo ys true acc := by
  induction mid with
  | nil => simp
  | cons l ls ih =>
      have hl : lineHasMarker l = false := hmid l (List.mem_cons_self _ _)
      have hls : ∀ x ∈ ls, lineHasMarker x = false :=
        fun x hx => hmid x (List.mem_cons_of_mem _ hx)
      rw [List.cons_append, countWordsGo_hidden hl]
      exact ih hls

/-- C4: the word count walks the file line by line with a toggling
exclusion flag.  With `pre` and `mid` free of the fixed markers and `m`,
`m2` marker lines: the lines strictly between the two markers contribute
nothing (the closing marker line itself is counted, since the flag is
toggled before it is tested); a single unmatched marker suppresses every
following line; and marker-free lines each contribute their
whitespace-token count. -/
theorem c4_word_count (pre mid post : List String) (m m2 : String)
    (hpre : ∀ l ∈ pre, lineHasMarker l = false)
    (hm : lineHasMarker m = true)
    (hmid : ∀ l ∈ mid, lineHasMarker l = false)
    (hm2 : lineHasMarker m2 = true) :
    count_words (pre ++ m :: (mid ++ m2 :: post))
      = sumWords pre + pyWordCount m2 + count_words post ∧
    count_words (pre ++ m :: mid) = sumWords pre ∧
    count_words pre = sumWords pre := by
  refine ⟨?_, ?_, ?_⟩
  · show countWordsGo (pre ++ m :: (mid ++ m2 :: post)) false 0 = _
    rw [countWordsGo_clean hpre, countWordsGo_marker_on hm,
      countWordsGo_skipped hmid, countWordsGo_marker_off hm2, countWordsGo_acc]
    show _ = sumWords pre + pyWordCount m2 + countWordsGo post false 0
    omega
  · show countWordsGo (pre ++ m :: mid) false 0 = _
    rw [countWordsGo_clean hpre, countWordsGo_marker_on hm]
    have hnil : (mid : List String) = mid ++ [] := by simp
    rw [hnil, countWordsGo_skipped hmid]
    show 0 + sumWords pre = sumWords pre
    omega
  · have h0 : count_words pre = countWordsGo (pre ++ []) false 0 := by
      show countWordsGo pre false 0 = _
      rw [List.append_nil]
    rw [h0, countWordsGo_clean hpre]
    show 0 + sumWords pre = sumWords pre
    omega

/-- Concrete run of the exclusion semantics: the `figure` block markers
hide the enclosed line, the closing marker line's own tokens count, and an
unmatched `$$` suppresses the rest of the file. -/
theorem c4_word_count_witness :
    count_words (["one two"] ++ "x \x7bfigure\x7d" ::
        (["three four five"] ++ "\x7bfigure\x7d done" :: ["tail words"]))
      = sumWords ["one two"] + pyWordCount "\x7bfigure\x7d done"
          + count_words ["tail words"] ∧
    count_words (["one two"] ++ "x \x7bfigure\x7d" :: ["three four five"])
      = sumWords ["one two"] ∧
    count_words ["one two"] = sumWords ["one two"] :=
  c4_word_count ["one two"] ["three four five"] ["tail words"]
    "x \x7bfigure\x7d" "\x7bfigure\x7d done" (by decide) (by decide) (by decide)
    (by decide)

/-! ## Structure of the built tree -/

theorem foldl_dictUpd_mem {β : Type} (f : Record → β) :
    ∀ (l : List Record) (acc : List (String × β)) (kv : String × β),
      kv ∈ l.foldl (fun a c => dictUpd a c.number (f c)) acc →
      kv ∈ acc ∨ ∃ c ∈ l, kv = (c.number, f c) := by
  intro l
  induction l with
  | nil => intro acc kv h; exact Or.inl h
  | cons c cs ih =>
      intro acc kv h
      rcases ih _ kv h with h' | ⟨c', hc', he⟩
      · rcases dictUpd_mem h' with he | hacc
        · exact Or.inr ⟨c, List.mem_cons_self _ _, he⟩
        · exact Or.inl hacc
      · exact Or.inr ⟨c', List.mem_cons_of_mem _ hc', he⟩

theorem buildAux_children_mem {toc : List Record} {fuel : Nat} {node : Option Record}
    {kv : String × TocTree} (h : kv ∈ (buildAux toc (fuel + 1) node).children) :
    ∃ r ∈ toc, isChild node r = true ∧ kv = (r.number, buildAux toc fuel (some r)) := by
  simp only [buildAux, TocTree.children] at h
  rcases foldl_dictUpd_mem _ _ _ _ h with h' | ⟨c, hc, he⟩
  · simp at h'
  · exact ⟨c, (List.mem_filter.1 hc).1, (List.mem_filter.1 hc).2, he⟩

theorem getTreeAux_keys {toc : List Record} :
    ∀ (fe fb : Nat) (node : Option Record) (lvl : Nat) (ln : Nat × String),
      ln ∈ getTreeAux fe (buildAux toc fb node) lvl →
      ∃ r ∈ toc, r.number = ln.2 := by
  intro fe
  induction fe with
  | zero => intro fb node lvl ln h; simp [getTreeAux] at h
  | succ fe ih =>
      intro fb node lvl ln h
      cases fb with
      | zero => simp [getTreeAux, buildAux, TocTree.children] at h
      | succ fb =>
          simp only [getTreeAux] at h
          rcases List.mem_flatMap.1 h with ⟨kv, hkv, hln⟩
          rcases buildAux_children_mem hkv with ⟨r, hr, _, rfl⟩
          rcases List.mem_cons.1 hln with rfl | htail
          · exact ⟨r, hr, rfl⟩
          · by_cases hemp : (buildAux toc fb (some r)).children.isEmpty
            · rw [if_pos hemp] at htail
              simp at htail
            · rw [if_neg hemp] at htail
              exact ih fb (some r) (lvl + 1) ln htail

theorem treeWalk_keys {toc : List Record} {ln : Nat × String}
    (h : ln ∈ treeWalk toc) : ∃ r ∈ toc, r.number = ln.2 :=
  getTreeAux_keys (treeFuel toc) (treeFuel toc) none 0 ln h

/-! ## Invariants of the lookup table -/

/-- What `generate_lut` guarantees for each stored pair: the entry carries
its own key as number, and its words and percent come from the word-count
entry for its caption. -/
def lutEntryOk (wcE : List (String × String × Nat)) (maxw : Int)
    (kv : String × Entry) : Prop :=
  kv.2.number = kv.1 ∧
  ∃ fw, dictFind wcE kv.2.caption = some fw ∧ kv.2.words = fw.2 ∧
    kv.2.percent = pyPercent fw.2 maxw

theorem generateLutGo_entries {wcE : List (String × String × Nat)} {maxw : Int} :
    ∀ (toc : List Record) (lut0 lut : List (String × Entry)),
      generateLutGo wcE maxw toc lut0 = some lut →
      (∀ kv ∈ lut0, lutEntryOk wcE maxw kv) →
      ∀ kv ∈ lut, lutEntryOk wcE maxw kv := by
  intro toc
  induction toc with
  | nil =>
      intro lut0 lut h hinv
      cases h
      exact hinv
  | cons r rest ih =>
      intro lut0 lut h hinv
      unfold generateLutGo at h
      split at h
      · cases h
      · rename_i fw hf
        split at h
        · cases h
        · refine ih _ _ h ?_
          intro kv hkv
          rcases dictUpd_mem hkv with rfl | hold
          · exact ⟨rfl, fw, hf, rfl, rfl⟩
          · exact hinv kv hold

theorem generateLutGo_keys {wcE : List (String × String × Nat)} {maxw : Int} :
    ∀ (toc : List Record) (lut0 lut : List (String × Entry)),
      generateLutGo wcE maxw toc lut0 = some lut →
      (∀ k, dictHasKey lut0 k = true → dictHasKey lut k = true) ∧
      (∀ r ∈ toc, dictHasKey lut r.number = true) := by
  intro toc
  induction toc with
  | nil =>
      intro lut0 lut h
      cases h
      exact ⟨fun _ hk => hk, by simp⟩
  | cons r rest ih =>
      intro lut0 lut h
      unfold generateLutGo at h
      split at h
      · cases h
      · rename_i fw hf
        split at h
        · cases h
        · have hrec := ih _ _ h
          refine ⟨fun k hk => hrec.1 k (dictHasKey_dictUpd_of _ hk), ?_⟩
          intro r' hr'
          rcases List.mem_cons.1 hr' with rfl | hmem
          · exact hrec.1 r'.number (dictHasKey_dictUpd_self _ _ _)
          · exact hrec.2 r' hmem

/-! ## `mapOpt` behaviour -/

theorem mapOpt_length {α β : Type} (f : α → Option β) :
    ∀ (l : List α) (out : List β), mapOpt f l = some out → out.length = l.length := by
  intro l
  induction l with
  | nil => intro out h; cases h; rfl
  | cons a as ih =>
      intro out h
      unfold mapOpt at h
      cases hf : f a with
      | none => rw [hf] at h; cases h
      | some b =>
          rw [hf] at h
          cases hr : mapOpt f as with
          | none => rw [hr] at h; cases h
          | some outs =>
              rw [hr] at h
              cases h
              simp [ih outs hr]

theorem mapOpt_total {α β : Type} (f : α → Option β) :
    ∀ (l : List α), (∀ a ∈ l, ∃ b, f a = some b) →
      ∃ out, mapOpt f l = some out ∧ ∀ x ∈ out, ∃ a ∈ l, f a = some x := by
  intro l
  induction l with
  | nil => intro _; exact ⟨[], rfl, by simp⟩
  | cons a as ih =>
      intro htot
      rcases htot a (List.mem_cons_self _ _) with ⟨b, hb⟩
      rcases ih (fun x hx => htot x (List.mem_cons_of_mem _ hx)) with ⟨outs, houts, hall⟩
      refine ⟨b :: outs, ?_, ?_⟩
      · unfold mapOpt
        rw [hb, houts]
        rfl
      · intro x hx
        rcases List.mem_cons.1 hx with rfl | hxs
        · exact ⟨a, List.mem_cons_self _ _, hb⟩
        · rcases hall x hxs with ⟨a', ha', hfa'⟩
          exact ⟨a', List.mem_cons_of_mem _ ha', hfa'⟩

/-! ## C6: diff emission -/

theorem diff_iter_none_eq (lut : List (String × Entry)) :
    ∀ walk : List (Nat × String),
      diff_iter lut none walk
        = (tree_iter lut walk).map (List.map (fun le => DiffOut.plain le.1 le.2)) := by
  intro walk
  induction walk with
  | nil => rfl
  | cons ln rest ih =>
      unfold diff_iter tree_iter at ih ⊢
      unfold mapOpt
      cases h : dictFind lut ln.2 with
      | none =>
          have hd : diffStep lut none ln = none := by simp [diffStep, h]
          have ht : treeStep lut ln = none := by simp [treeStep, h]
          rw [hd, ht]
          rfl
      | some e =>
          have hd : diffStep lut none ln = some (DiffOut.plain ln.1 e) := by
            simp [diffStep, h]
          have ht : treeStep lut ln = some (ln.1, e) := by simp [treeStep, h]
          rw [hd, ht, ih]
          cases hr : mapOpt (treeStep lut) rest with
          | none => rfl
          | some outs => rfl

theorem diff_iter_some_shape (lut dl : List (String × Entry)) :
    ∀ (walk : List (Nat × String)) (out : List DiffOut),
      diff_iter lut (some dl) walk = some out →
      out.length = walk.length ∧
      ∀ x ∈ out, ∃ ln ∈ walk, ∃ e old,
        dictFind lut ln.2 = some e ∧ dictFind dl e.number = some old ∧
        x = DiffOut.diffed ln.1 e old.words old.percent := by
  intro walk
  induction walk with
  | nil =>
      intro out h
      cases h
      exact ⟨rfl, by simp⟩
  | cons ln rest ih =>
      intro out h
      unfold diff_iter at h
      unfold mapOpt at h
      cases h1 : dictFind lut ln.2 with
      | none =>
          have hd : diffStep lut (some dl) ln = none := by simp [diffStep, h1]
          rw [hd] at h
          cases h
      | some e =>
          cases h2 : dictFind dl e.number with
          | none =>
              have hd : diffStep lut (some dl) ln = none := by
                simp [diffStep, h1, h2]
              rw [hd] at h
              cases h
          | some old =>
              have hd : diffStep lut (some dl) ln
                  = some (DiffOut.diffed ln.1 e old.words old.percent) := by
                simp [diffStep, h1, h2]
              rw [hd] at h
              cases hr : mapOpt (diffStep lut (some dl)) rest with
              | none => rw [hr] at h; cases h
              | some outs =>
                  rw [hr] at h
                  cases h
                  rcases ih outs hr with ⟨hlen, hall⟩
                  refine ⟨by simp [hlen], ?_⟩
                  intro x hx
                  rcases List.mem_cons.1 hx with rfl | hxs
                  · exact ⟨ln, List.mem_cons_self _ _, e, old, h1, h2, rfl⟩
                  · rcases hall x hxs with ⟨ln', hln', e', old', h1', h2', hx'⟩
                    exact ⟨ln', List.mem_cons_of_mem _ hln', e', old', h1', h2', hx'⟩

/-- C6: with no baseline, `DiffTree.__iter__` emits exactly the values of
`Tree.__iter__`, with no diff fields; with a baseline, each traversal step
emits one 8-tuple whose `priorWords` and `priorPercent` are the words and
percent of the baseline lut entry looked up at the node's own
dotted-decimal number. -/
theorem c6_diff_emission (lut dl : List (String × Entry))
    (walk : List (Nat × String)) :
    diff_iter lut none walk
      = (tree_iter lut walk).map (List.map (fun le => DiffOut.plain le.1 le.2)) ∧
    ∀ out, diff_iter lut (some dl) walk = some out →
      out.length = walk.length ∧
      ∀ x ∈ out, ∃ ln ∈ walk, ∃ e old,
        dictFind lut ln.2 = some e ∧ dictFind dl e.number = some old ∧
        x = DiffOut.diffed ln.1 e old.words old.percent :=
  ⟨diff_iter_none_eq lut walk, fun out h => diff_iter_some_shape lut dl walk out h⟩

/-- A one-node current lut used to exercise the diff emission. -/
def c6lut : List (String × Entry) := [("1", ⟨"1", "A", 3, 40, 20⟩)]

/-- A baseline lut holding different words and percent for the same node. -/
def c6base : List (String × Entry) := [("1", ⟨"1", "A", 3, 25, 12⟩)]

/-- Concrete run of the diff emission on a one-node tree with a baseline
holding different words and percent. -/
theorem c6_diff_emission_witness :
    (diff_iter c6lut none [(0, "1")]
      = (tree_iter c6lut [(0, "1")]).map
          (List.map (fun le => DiffOut.plain le.1 le.2))) ∧
    ([DiffOut.diffed 0 ⟨"1", "A", 3, 40, 20⟩ 25 12].length = [(0, "1")].length ∧
      ∀ x ∈ [DiffOut.diffed 0 ⟨"1", "A", 3, 40, 20⟩ 25 12],
        ∃ ln ∈ [(0, "1")], ∃ e old,
          dictFind c6lut ln.2 = some e ∧
          dictFind c6base e.number = some old ∧
          x = DiffOut.diffed ln.1 e old.words old.percent) :=
  ⟨(c6_diff_emission c6lut c6base [(0, "1")]).1,
   (c6_diff_emission c6lut c6base [(0, "1")]).2
     [DiffOut.diffed 0 ⟨"1", "A", 3, 40, 20⟩ 25 12] (by decide)⟩

/-! ## C5: the snapshot round trip -/

/-- C5: diffing a tree against a baseline equal to itself — which is what
storing a snapshot, loading it back, and diffing the same current tree
amounts to, under the claim's assumption that store-then-load reproduces
the stored tree — succeeds and yields `priorWords = words` (so
`delta = words - priorWords = 0`) and `priorPercent = percent` for every
emitted node. -/
theorem c5_roundtrip (wcE : List (String × String × Nat)) (maxw : Int)
    (toc : List Record) (lut : List (String × Entry))
    (hlut : generate_lut wcE maxw toc = some lut) :
    ∃ out, diff_iter lut (some lut) (treeWalk toc) = some out ∧
      ∀ x ∈ out, ∃ lvl e, x = DiffOut.diffed lvl e e.words e.percent := by
  have hkeys := (generateLutGo_keys toc [] lut hlut).2
  have hok : ∀ kv ∈ lut, lutEntryOk wcE maxw kv :=
    generateLutGo_entries toc [] lut hlut (by simp)
  have hstep : ∀ ln ∈ treeWalk toc, ∃ b, diffStep lut (some lut) ln = some b := by
    intro ln hln
    rcases treeWalk_keys hln with ⟨r, hr, hnum⟩
    have hk : dictHasKey lut ln.2 = true := by rw [← hnum]; exact hkeys r hr
    rcases (dictHasKey_iff_find lut ln.2).1 hk with ⟨e, he⟩
    have hwf : e.number = ln.2 := (hok _ (dictFind_mem he)).1
    exact ⟨DiffOut.diffed ln.1 e e.words e.percent, by simp [diffStep, he, hwf]⟩
  rcases mapOpt_total _ (treeWalk toc) hstep with ⟨out, hout, hall⟩
  refine ⟨out, hout, ?_⟩
  intro x hx
  rcases hall x hx with ⟨ln, hln, hfx⟩
  rcases treeWalk_keys hln with ⟨r, hr, hnum⟩
  have hk : dictHasKey lut ln.2 = true := by rw [← hnum]; exact hkeys r hr
  rcases (dictHasKey_iff_find lut ln.2).1 hk with ⟨e, he⟩
  have hwf : e.number = ln.2 := (hok _ (dictFind_mem he)).1
  have hval : diffStep lut (some lut) ln
      = some (DiffOut.diffed ln.1 e e.words e.percent) := by
    simp [diffStep, he, hwf]
  rw [hval] at hfx
  cases hfx
  exact ⟨ln.1, e, rfl⟩

/-- Concrete round trip on a one-chapter outline. -/
theorem c5_roundtrip_witness :
    ∃ out, diff_iter [("1", ⟨"1", "A", 1, 0, 0⟩)]
        (some [("1", ⟨"1", "A", 1, 0, 0⟩)])
        (treeWalk [⟨"chapter", "1", "A", 1⟩]) = some out ∧
      ∀ x ∈ out, ∃ lvl e, x = DiffOut.diffed lvl e e.words e.percent :=
  c5_roundtrip [("A", ("a.tex", 0))] 5 [⟨"chapter", "1", "A", 1⟩]
    [("1", ⟨"1", "A", 1, 0, 0⟩)] (by
      have hp : pyPercent 0 5 = 0 := by simp [pyPercent, flD, truncQ]
      simp [generate_lut, generateLutGo, dictFind, dictUpd, dictHasKey, hp])

/-! ## C1: the parent relation of the built tree -/

theorem dictUpd_keys_mem {α : Type} (d : List (String × α)) (k k' : String)
    (v : α) :
    k' ∈ (dictUpd d k v).map Prod.fst ↔ (k' ∈ d.map Prod.fst ∨ k' = k) := by
  unfold dictUpd
  split
  · rename_i h
    have hkeys : (d.map (fun kv => if kv.1 == k then (k, v) else kv)).map Prod.fst
        = d.map Prod.fst := by
      rw [List.map_map]
      refine List.map_congr_left ?_
      intro kv _
      by_cases hk : kv.1 = k
      · simp [hk]
      · simp [hk]
    rw [hkeys]
    constructor
    · exact Or.inl
    · rintro (hmem | rfl)
      · exact hmem
      · unfold dictHasKey at h
        rcases List.any_eq_true.1 h with ⟨kv, hkv, he⟩
        have : kv.1 = k' := by simpa using he
        exact this ▸ List.mem_map.2 ⟨kv, hkv, rfl⟩
  · simp

theorem foldl_dictUpd_keys {β : Type} (f : Record → β) :
    ∀ (l : List Record) (acc : List (String × β)) (k : String),
      k ∈ (l.foldl (fun a c => dictUpd a c.number (f c)) acc).map Prod.fst ↔
        (k ∈ acc.map Prod.fst ∨ ∃ c ∈ l, c.number = k) := by
  intro l
  induction l with
  | nil => intro acc k; simp
  | cons c cs ih =>
      intro acc k
      show k ∈ (cs.foldl _ (dictUpd acc c.number (f c))).map Prod.fst ↔ _
      rw [ih]
      rw [dictUpd_keys_mem]
      constructor
      · rintro ((h | rfl) | ⟨c', hc', rfl⟩)
        · exact Or.inl h
        · exact Or.inr ⟨c, List.mem_cons_self _ _, rfl⟩
        · exact Or.inr ⟨c', List.mem_cons_of_mem _ hc', rfl⟩
      · rintro (h | ⟨c', hc', rfl⟩)
        · exact Or.inl (Or.inl h)
        · rcases List.mem_cons.1 hc' with rfl | hcs
          · exact Or.inl (Or.inr rfl)
          · exact Or.inr ⟨c', hcs, rfl⟩

theorem edgesUnder_good {toc : List Record} :
    ∀ (fe fb : Nat) (r : Record), r ∈ toc →
      ∀ pc ∈ edgesUnder fe r.number (buildAux toc fb (some r)),
        ∃ rp ∈ toc, ∃ rc ∈ toc, rp.number = pc.1 ∧ rc.number = pc.2 ∧
          isChildOfItem rp rc = true := by
  intro fe
  induction fe with
  | zero => intro fb r hr pc hpc; simp [edgesUnder] at hpc
  | succ fe ih =>
      intro fb r hr pc hpc
      cases fb with
      | zero => simp [edgesUnder, buildAux, TocTree.children] at hpc
      | succ fb =>
          simp only [edgesUnder] at hpc
          rcases List.mem_flatMap.1 hpc with ⟨kv, hkv, hpc'⟩
          rcases buildAux_children_mem hkv with ⟨c, hc, hch, rfl⟩
          rcases List.mem_cons.1 hpc' with rfl | htail
          · exact ⟨r, hr, c, hc, rfl, rfl, hch⟩
          · exact ih fb c hc pc htail

/-- C1 (amended): every parent/child edge of the built tree joins numbers
of input records where the child's number has the parent's number as a
plain *string* prefix (Python `startswith`, not a dotted-decimal
component prefix) and the child's dot count is the parent's plus one; and
the top-level keys of the tree are exactly the numbers of the Chapter
records, so a record with no parent is placed as a root iff its kind is
chapter. -/
theorem c1_parent_shape (toc : List Record) :
    (∀ pc ∈ treeEdges toc, ∃ rp ∈ toc, ∃ rc ∈ toc,
        rp.number = pc.1 ∧ rc.number = pc.2 ∧
        pyStartsWith rc.number rp.number = true ∧ level rc = level rp + 1) ∧
    (∀ k, k ∈ rootKeys toc ↔ ∃ r ∈ toc, isChapter r = true ∧ r.number = k) := by
  constructor
  · intro pc hpc
    unfold treeEdges generate_tree treeFuel at hpc
    rcases List.mem_flatMap.1 hpc with ⟨kv, hkv, hpc'⟩
    rcases buildAux_children_mem hkv with ⟨r, hr, _, rfl⟩
    rcases edgesUnder_good (maxLevel toc + 2) (maxLevel toc + 1) r hr pc hpc'
      with ⟨rp, hrp, rc, hrc, h1, h2, h3⟩
    have h3' := h3
    unfold isChildOfItem at h3'
    rw [Bool.and_eq_true] at h3'
    obtain ⟨hdesc, hgen⟩ := h3'
    refine ⟨rp, hrp, rc, hrc, h1, h2, hdesc, ?_⟩
    unfold isNextGeneration at hgen
    simpa using hgen
  · intro k
    show k ∈ (buildAux toc (maxLevel toc + 1 + 1) none).children.map Prod.fst ↔ _
    have : (buildAux toc (maxLevel toc + 1 + 1) none).children
        = (getChildren toc none).foldl
            (fun acc c => dictUpd acc c.number (buildAux toc (maxLevel toc + 1) (some c))) [] := rfl
    rw [this, foldl_dictUpd_keys]
    simp only [List.map_nil, List.not_mem_nil, false_or]
    constructor
    · rintro ⟨c, hc, rfl⟩
      exact ⟨c, (List.mem_filter.1 hc).1, (List.mem_filter.1 hc).2, rfl⟩
    · rintro ⟨r, hr, hch, rfl⟩
      exact ⟨r, List.mem_filter.2 ⟨hr, hch⟩, rfl⟩

/-- The record list of the concrete counterexample: chapters `1` and `11`
and section `11.1`. -/
def c1toc : List Record :=
  [⟨"chapter", "1", "Alpha", 1⟩, ⟨"chapter", "11", "Beta", 2⟩,
   ⟨"section", "11.1", "Gamma", 3⟩]

/-- Split a character sequence at `'.'` separators. -/
def splitDots (s : List Char) : List (List Char) :=
  s.foldr
    (fun c acc =>
      if c = '.' then [] :: acc
      else
        match acc with
        | [] => [[c]]
        | g :: gs => (c :: g) :: gs)
    [[]]

/-- Modelled from the spec: the dotted-decimal components of a section
number, used to state the spec's "proper dotted-decimal prefix" relation
between a parent number and a child number. -/
def dottedComponents (s : String) : List (List Char) :=
  splitDots s.data

/-- C1 is false as stated: on the records `chapter 1`, `chapter 11`,
`section 11.1` the built tree places `11.1` under parent `1` as well,
although `1` is not a dotted-decimal prefix of `11.1` (its component list
`[1]` is not a prefix of `[11, 1]`), so a non-root node's parent need not
be the dotted-decimal-prefix node; the code matches by plain string
prefix. -/
theorem c1_parent_counterexample :
    ("1", "11.1") ∈ treeEdges c1toc ∧
    (dottedComponents "1").isPrefixOf (dottedComponents "11.1") = false := by
  decide

/-- Concrete instance of the amended parent property at the edge
`(11, 11.1)` and the root key `11`. -/
theorem c1_parent_shape_witness :
    (∃ rp ∈ c1toc, ∃ rc ∈ c1toc, rp.number = ("11", "11.1").1 ∧
      rc.number = ("11", "11.1").2 ∧
      pyStartsWith rc.number rp.number = true ∧ level rc = level rp + 1) ∧
    ("11" ∈ rootKeys c1toc ↔ ∃ r ∈ c1toc, isChapter r = true ∧ r.number = "11") :=
  ⟨(c1_parent_shape c1toc).1 ("11", "11.1") (by decide),
   (c1_parent_shape c1toc).2 "11"⟩

/-! ## C2: node counting -/

theorem foldl_count_sum {α : Type} (f : α → Nat) :
    ∀ (l : List α) (a : Nat),
      l.foldl (fun acc c => acc + 1 + f c) a = a + (l.map (fun c => 1 + f c)).sum := by
  intro l
  induction l with
  | nil => intro a; simp
  | cons c cs ih =>
      intro a
      simp only [List.foldl_cons, List.map_cons, List.sum_cons]
      rw [ih]
      omega

theorem countAux_succ (toc : List Record) (fuel : Nat) (node : Option Record) :
    countAux toc (fuel + 1) node
      = ((getChildren toc node).map (fun c => 1 + countAux toc fuel (some c))).sum := by
  show (getChildren toc node).foldl _ 0 = _
  rw [foldl_count_sum (fun c => countAux toc fuel (some c))]
  omega

theorem countAux_of_no_children {toc : List Record} {t : Record}
    (h : getChildren toc (some t) = []) (fuel : Nat) :
    countAux toc fuel (some t) = 0 := by
  cases fuel with
  | zero => rfl
  | succ fuel => rw [countAux_succ, h]; rfl

theorem mem_getChildren_level {toc : List Record} {x c : Record}
    (h : c ∈ getChildren toc (some x)) : c ∈ toc ∧ level c = level x + 1 := by
  have h1 := List.mem_filter.1 h
  refine ⟨h1.1, ?_⟩
  have h2 := h1.2
  simp only [isChild, isChildOfItem, Bool.and_eq_true, isNextGeneration,
    beq_iff_eq] at h2
  exact h2.2

theorem le_maxLevel {toc : List Record} {r : Record} (h : r ∈ toc) :
    level r ≤ maxLevel toc := by
  unfold maxLevel
  induction toc with
  | nil => cases h
  | cons x xs ih =>
      simp only [List.map_cons, List.foldr_cons]
      rcases List.mem_cons.1 h with rfl | hmem
      · exact le_max_left _ _
      · exact le_trans (ih hmem) (le_max_right _ _)

theorem getChildren_level2 {toc : List Record} (h0 : ∀ r ∈ toc, level r ≤ 2)
    {t : Record} (ht : level t = 2) : getChildren toc (some t) = [] := by
  refine List.filter_eq_nil_iff.2 ?_
  intro c hc hcontra
  simp only [isChild, isChildOfItem, Bool.and_eq_true, isNextGeneration,
    beq_iff_eq] at hcontra
  have := h0 c hc
  omega

theorem sum_map_one {α : Type} (l : List α) : (l.map (fun _ => 1)).sum = l.length := by
  induction l with
  | nil => rfl
  | cons x xs ih =>
      simp only [List.map_cons, List.sum_cons, List.length_cons, ih]
      omega

theorem map_sum_add {α : Type} (l : List α) (u v : α → Nat) :
    (l.map (fun x => u x + v x)).sum = (l.map u).sum + (l.map v).sum := by
  induction l with
  | nil => rfl
  | cons x xs ih =>
      simp only [List.map_cons, List.sum_cons, ih]
      omega

theorem map_sum_if_count (C : List Record) (p : Record → Bool) (w : Nat) :
    (C.map (fun c => if p c then w else 0)).sum = C.countP p * w := by
  induction C with
  | nil => simp
  | cons c cs ih =>
      simp only [List.map_cons, List.sum_cons, List.countP_cons]
      by_cases h : p c
      · simp only [h, if_true, ih]
        ring
      · simp only [h, Bool.false_eq_true, if_false, ih]
        ring

theorem sum_filter_swap (C A : List Record) (P : Record → Record → Bool)
    (f : Record → Nat) :
    (C.map (fun c => ((A.filter (P c)).map f).sum)).sum
      = (A.map (fun a => C.countP (fun c => P c a) * f a)).sum := by
  induction A with
  | nil => simp
  | cons a as ih =>
      have hstep : ∀ c : Record, ((List.filter (P c) (a :: as)).map f).sum
          = (if P c a then f a else 0) + ((as.filter (P c)).map f).sum := by
        intro c
        by_cases h : P c a
        · simp [List.filter_cons, h]
        · simp [List.filter_cons, h]
      calc (C.map fun c => ((List.filter (P c) (a :: as)).map f).sum).sum
          = (C.map (fun c =>
              (if P c a then f a else 0) + ((as.filter (P c)).map f).sum)).sum := by
            exact congrArg List.sum (List.map_congr_left (fun c _ => hstep c))
        _ = (C.map (fun c => if P c a then f a else 0)).sum
              + (C.map (fun c => ((as.filter (P c)).map f).sum)).sum :=
            map_sum_add C _ _
        _ = C.countP (fun c => P c a) * f a
              + (as.map (fun x => C.countP (fun c => P c x) * f x)).sum := by
            rw [map_sum_if_count, ih]
        _ = ((a :: as).map (fun x => C.countP (fun c => P c x) * f x)).sum := by
            simp

theorem sum_filter_eq_sum_if (A : List Record) (p : Record → Bool)
    (g : Record → Nat) :
    ((A.filter p).map g).sum = (A.map (fun a => if p a then g a else 0)).sum := by
  induction A with
  | nil => rfl
  | cons a as ih =>
      by_cases h : p a
      · simp [List.filter_cons, h, ih]
      · simp [List.filter_cons, h, ih]

theorem countP_level_partition (toc : List Record)
    (h0 : ∀ r ∈ toc, level r ≤ 2) :
    toc.countP (fun r => level r == 0) + toc.countP (fun r => level r == 1)
      + toc.countP (fun r => level r == 2) = toc.length := by
  induction toc with
  | nil => rfl
  | cons r rest ih =>
      have h0' : ∀ x ∈ rest, level x ≤ 2 :=
        fun x hx => h0 x (List.mem_cons_of_mem _ hx)
      have hr := h0 r (List.mem_cons_self _ _)
      have hrec := ih h0'
      simp only [List.countP_cons, List.length_cons]
      have hcase : level r = 0 ∨ level r = 1 ∨ level r = 2 := by omega
      rcases hcase with h | h | h <;> simp [h] <;> omega

theorem isChildOfItem_parts (p r : Record) :
    isChildOfItem p r = true ↔
      (pyStartsWith r.number p.number = true ∧ level r = level p + 1) := by
  unfold isChildOfItem isDescendant isNextGeneration
  rw [Bool.and_eq_true]
  simp [beq_iff_eq]

/-- C2 (amended): the node counter can drop records (a non-chapter with no
matching parent) and count records several times (a number that
string-prefix-matches several parents), so it equals the input length only
under the well-formedness the real extractor provides: dot counts are at
most 2, a record is a chapter exactly when its number has no dot, and
every dotted record has exactly one record whose number is a string prefix
of it with one dot fewer.  Under those hypotheses no record is dropped or
duplicated and `len(tree)` equals the number of records. -/
theorem c2_node_count (toc : List Record)
    (h0 : ∀ r ∈ toc, level r ≤ 2)
    (h1 : ∀ r ∈ toc, (isChapter r = true ↔ level r = 0))
    (h3 : ∀ r ∈ toc, 1 ≤ level r →
      toc.countP (fun p => isChildOfItem p r) = 1) :
    countTree toc = toc.length := by
  have hA : countTree toc
      = ((getChildren toc none).map
          (fun c => 1 + countAux toc (maxLevel toc + 1) (some c))).sum := by
    show countAux toc (maxLevel toc + 1 + 1) none = _
    exact countAux_succ toc (maxLevel toc + 1) none
  have hrootmem : ∀ c ∈ getChildren toc none, c ∈ toc ∧ isChapter c = true := by
    intro c hc
    exact ⟨(List.mem_filter.1 hc).1, (List.mem_filter.1 hc).2⟩
  -- one chapter subtree: its sections, each with its subsections
  have hB : ∀ c ∈ getChildren toc none,
      countAux toc (maxLevel toc + 1) (some c)
        = (getChildren toc (some c)).length
          + ((getChildren toc (some c)).map
              (fun s => (getChildren toc (some s)).length)).sum := by
    intro c hc
    obtain ⟨hcin, hchap⟩ := hrootmem c hc
    have hclvl : level c = 0 := (h1 c hcin).1 hchap
    rw [countAux_succ]
    have hsval : ∀ s ∈ getChildren toc (some c),
        countAux toc (maxLevel toc) (some s)
          = (getChildren toc (some s)).length := by
      intro s hs
      obtain ⟨hsin, hslvl⟩ := mem_getChildren_level hs
      rw [hclvl] at hslvl
      have hm : 1 ≤ maxLevel toc := by
        have := le_maxLevel hsin
        omega
      obtain ⟨g, hg⟩ : ∃ g, maxLevel toc = g + 1 := ⟨maxLevel toc - 1, by omega⟩
      rw [hg, countAux_succ]
      have hmapc : (getChildren toc (some s)).map
            (fun t => 1 + countAux toc g (some t))
          = (getChildren toc (some s)).map (fun _ => 1) := by
        refine List.map_congr_left ?_
        intro t ht
        obtain ⟨htin, htlvl⟩ := mem_getChildren_level ht
        rw [hslvl] at htlvl
        rw [countAux_of_no_children (getChildren_level2 h0 htlvl) g]
      rw [hmapc, sum_map_one]
    have hmapc2 : (getChildren toc (some c)).map
          (fun s => 1 + countAux toc (maxLevel toc) (some s))
        = (getChildren toc (some c)).map
            (fun s => 1 + (getChildren toc (some s)).length) := by
      refine List.map_congr_left ?_
      intro s hs
      rw [hsval s hs]
    rw [hmapc2, map_sum_add, sum_map_one]
  -- total: roots, sections, subsections
  have hC : countTree toc
      = (getChildren toc none).length
        + ((getChildren toc none).map
            (fun c => (getChildren toc (some c)).length)).sum
        + ((getChildren toc none).map
            (fun c => ((getChildren toc (some c)).map
              (fun s => (getChildren toc (some s)).length)).sum)).sum := by
    rw [hA]
    have hmap : (getChildren toc none).map
          (fun c => 1 + countAux toc (maxLevel toc + 1) (some c))
        = (getChildren toc none).map
            (fun c => 1 + ((getChildren toc (some c)).length
              + ((getChildren toc (some c)).map
                  (fun s => (getChildren toc (some s)).length)).sum)) := by
      refine List.map_congr_left ?_
      intro c hc
      rw [hB c hc]
    rw [hmap, map_sum_add, map_sum_add, sum_map_one]
    omega
  -- how often a record is somebody's chapter-child
  have hcnt1 : ∀ a ∈ toc, (getChildren toc none).countP (fun c => isChildOfItem c a)
      = (if level a == 1 then 1 else 0) := by
    intro a ha
    have hcf : (getChildren toc none).countP (fun c => isChildOfItem c a)
        = toc.countP (fun c => isChildOfItem c a && isChapter c) := by
      show (toc.filter _).countP _ = _
      rw [List.countP_filter]
      rfl
    rw [hcf]
    by_cases hla : level a = 1
    · have hcg : toc.countP (fun c => isChildOfItem c a && isChapter c)
          = toc.countP (fun c => isChildOfItem c a) := by
        refine List.countP_congr ?_
        intro c hcin
        constructor
        · intro hcc
          rw [Bool.and_eq_true] at hcc
          exact hcc.1
        · intro hcc
          rw [Bool.and_eq_true]
          refine ⟨hcc, ?_⟩
          have hlvl := ((isChildOfItem_parts c a).1 hcc).2
          exact (h1 c hcin).2 (by omega)
      rw [hcg, h3 a ha (by omega)]
      simp [hla]
    · have hz : toc.countP (fun c => isChildOfItem c a && isChapter c) = 0 := by
        refine List.countP_eq_zero.2 ?_
        intro c hcin hcc
        rw [Bool.and_eq_true] at hcc
        obtain ⟨hch, hchap⟩ := hcc
        have hlvl := ((isChildOfItem_parts c a).1 hch).2
        have hc0 : level c = 0 := (h1 c hcin).1 hchap
        omega
      rw [hz]
      have hne : (level a == 1) = false := by simp [hla]
      simp [hne]
  -- how often a record is somebody's section-child
  have hcnt2 : ∀ t ∈ toc, (toc.filter (fun r => level r == 1)).countP
        (fun a => isChildOfItem a t)
      = (if level t == 2 then 1 else 0) := by
    intro t htin
    rw [List.countP_filter]
    by_cases hlt : level t = 2
    · have hcg : toc.countP (fun a => isChildOfItem a t && (level a == 1))
          = toc.countP (fun a => isChildOfItem a t) := by
        refine List.countP_congr ?_
        intro a hain
        constructor
        · intro hcc
          rw [Bool.and_eq_true] at hcc
          exact hcc.1
        · intro hcc
          rw [Bool.and_eq_true]
          refine ⟨hcc, ?_⟩
          have hlvl := ((isChildOfItem_parts a t).1 hcc).2
          simp only [beq_iff_eq]
          omega
      rw [hcg, h3 t htin (by omega)]
      simp [hlt]
    · have hz : toc.countP (fun a => isChildOfItem a t && (level a == 1)) = 0 := by
        refine List.countP_eq_zero.2 ?_
        intro a hain hcc
        rw [Bool.and_eq_true] at hcc
        obtain ⟨hch, hl1⟩ := hcc
        have hlvl := ((isChildOfItem_parts a t).1 hch).2
        have hla : level a = 1 := by simpa using hl1
        omega
      rw [hz]
      have hne : (level t == 2) = false := by simp [hlt]
      simp [hne]
  -- the three layer counts
  have hF : (getChildren toc none).length = toc.countP (fun r => level r == 0) := by
    have hlenc : (getChildren toc none).length = toc.countP (fun r => isChapter r) := by
      rw [List.countP_eq_length_filter]
      rfl
    rw [hlenc]
    refine List.countP_congr ?_
    intro r hr
    constructor
    · intro hc
      simp only [beq_iff_eq]
      exact (h1 r hr).1 hc
    · intro hl
      exact (h1 r hr).2 (by simpa using hl)
  have hD : ((getChildren toc none).map
        (fun c => (getChildren toc (some c)).length)).sum
      = toc.countP (fun r => level r == 1) := by
    have hmap : (getChildren toc none).map
          (fun c => (getChildren toc (some c)).length)
        = (getChildren toc none).map
            (fun c => ((toc.filter (fun a => isChildOfItem c a)).map
              (fun _ => 1)).sum) := by
      refine List.map_congr_left ?_
      intro c _
      rw [sum_map_one]
      rfl
    rw [hmap, sum_filter_swap (getChildren toc none) toc
      (fun c a => isChildOfItem c a) (fun _ => 1)]
    have hmap2 : toc.map
          (fun a => (getChildren toc none).countP (fun c => isChildOfItem c a) * 1)
        = toc.map (fun a => if level a == 1 then 1 else 0) := by
      refine List.map_congr_left ?_
      intro a ha
      rw [mul_one, hcnt1 a ha]
    rw [hmap2, map_sum_if_count, mul_one]
  have hE : ((getChildren toc none).map
        (fun c => ((getChildren toc (some c)).map
          (fun s => (getChildren toc (some s)).length)).sum)).sum
      = toc.countP (fun r => level r == 2) := by
    have hform : ((getChildren toc none).map
          (fun c => ((getChildren toc (some c)).map
            (fun s => (getChildren toc (some s)).length)).sum)).sum
        = ((getChildren toc none).map
            (fun c => ((toc.filter (fun a => isChildOfItem c a)).map
              (fun s => (getChildren toc (some s)).length)).sum)).sum := rfl
    rw [hform, sum_filter_swap (getChildren toc none) toc
      (fun c a => isChildOfItem c a)
      (fun s => (getChildren toc (some s)).length)]
    have hmap : toc.map (fun a => (getChildren toc none).countP
          (fun c => isChildOfItem c a) * (getChildren toc (some a)).length)
        = toc.map (fun a => if level a == 1
            then (getChildren toc (some a)).length else 0) := by
      refine List.map_congr_left ?_
      intro a ha
      rw [hcnt1 a ha]
      by_cases hla : (level a == 1)
      · simp [hla]
      · simp [hla]
    rw [hmap, ← sum_filter_eq_sum_if toc (fun r => level r == 1)
      (fun a => (getChildren toc (some a)).length)]
    have hmap3 : (toc.filter (fun r => level r == 1)).map
          (fun a => (getChildren toc (some a)).length)
        = (toc.filter (fun r => level r == 1)).map
            (fun a => ((toc.filter (fun t => isChildOfItem a t)).map
              (fun _ => 1)).sum) := by
      refine List.map_congr_left ?_
      intro a _
      rw [sum_map_one]
      rfl
    rw [hmap3, sum_filter_swap (toc.filter (fun r => level r == 1)) toc
      (fun a t => isChildOfItem a t) (fun _ => 1)]
    have hmap4 : toc.map (fun t => (toc.filter (fun r => level r == 1)).countP
          (fun a => isChildOfItem a t) * 1)
        = toc.map (fun t => if level t == 2 then 1 else 0) := by
      refine List.map_congr_left ?_
      intro t ht
      rw [mul_one, hcnt2 t ht]
    rw [hmap4, map_sum_if_count, mul_one]
  rw [hC, hF, hD, hE]
  exact countP_level_partition toc h0

/-- C2 is false as stated: a single `section 1.1` record with no chapter
above it is dropped entirely — the tree has 0 nodes for 1 input record. -/
theorem c2_node_count_counterexample :
    countTree [⟨"section", "1.1", "Solo", 4⟩] = 0 ∧
    ([⟨"section", "1.1", "Solo", 4⟩] : List Record).length = 1 := by
  decide

/-- Concrete run of the amended count on a well-formed outline. -/
theorem c2_node_count_witness :
    countTree [⟨"chapter", "1", "A", 1⟩, ⟨"section", "1.1", "B", 2⟩,
        ⟨"subsection", "1.1.1", "C", 3⟩, ⟨"section", "1.2", "D", 4⟩]
      = ([⟨"chapter", "1", "A", 1⟩, ⟨"section", "1.1", "B", 2⟩,
          ⟨"subsection", "1.1.1", "C", 3⟩,
          ⟨"section", "1.2", "D", 4⟩] : List Record).length :=
  c2_node_count _ (by decide) (by decide) (by decide)

/-! ## C3: the percent computation, under binary64 rounding -/

theorem rne_intCast (n : ℤ) : rne (n : ℚ) = n := by
  unfold rne
  rw [Int.floor_intCast]
  norm_num

theorem rne_ge_floor (q : ℚ) : ⌊q⌋ ≤ rne q := by
  unfold rne
  split_ifs <;> omega

theorem rne_le_floor_add_one (q : ℚ) : rne q ≤ ⌊q⌋ + 1 := by
  unfold rne
  split_ifs <;> omega

theorem rne_mono {a b : ℚ} (h : a ≤ b) : rne a ≤ rne b := by
  have hf : ⌊a⌋ ≤ ⌊b⌋ := Int.floor_mono h
  rcases lt_or_eq_of_le hf with hlt | heq
  · calc rne a ≤ ⌊a⌋ + 1 := rne_le_floor_add_one a
      _ ≤ ⌊b⌋ := by omega
      _ ≤ rne b := rne_ge_floor b
  · have hfrac : a - (⌊a⌋ : ℚ) ≤ b - (⌊b⌋ : ℚ) := by
      have : ((⌊a⌋ : ℚ)) = ((⌊b⌋ : ℚ)) := by exact_mod_cast heq
      linarith
    unfold rne
    rw [← heq]
    split_ifs <;> first
      | omega
      | (exfalso; linarith)

theorem rne_le_of_le {q : ℚ} {n : ℤ} (h : q ≤ (n : ℚ)) : rne q ≤ n := by
  have hm := rne_mono h
  rwa [rne_intCast] at hm

theorem le_rne_of_le {q : ℚ} {n : ℤ} (h : (n : ℚ) ≤ q) : n ≤ rne q := by
  have hm := rne_mono h
  rwa [rne_intCast] at hm

theorem rne_eq_of {q : ℚ} {n : ℤ} (h1 : (n : ℚ) ≤ q) (h2 : q < (n : ℚ) + 1 / 2) :
    rne q = n := by
  have hf : ⌊q⌋ = n := Int.floor_eq_iff.2 ⟨h1, by linarith⟩
  unfold rne
  rw [hf, if_pos (by linarith)]

theorem log2_eq_of {q : ℚ} {e : ℤ} (h1 : (2 : ℚ) ^ e ≤ q)
    (h2 : q < (2 : ℚ) ^ (e + 1)) : Int.log 2 q = e := by
  have hq : 0 < q := lt_of_lt_of_le (by positivity) h1
  have hA := Int.zpow_log_le_self (b := 2) (R := ℚ) (by norm_num) hq
  have hB := Int.lt_zpow_succ_log_self (b := 2) (R := ℚ) (by norm_num) q
  simp only [Nat.cast_ofNat] at hA hB
  by_contra hne
  rcases lt_or_gt_of_ne hne with hlt | hgt
  · have hstep : (2 : ℚ) ^ (Int.log 2 q + 1) ≤ (2 : ℚ) ^ e :=
      zpow_le_zpow_right₀ (by norm_num) (by omega)
    linarith
  · have hstep : (2 : ℚ) ^ (e + 1) ≤ (2 : ℚ) ^ (Int.log 2 q) :=
      zpow_le_zpow_right₀ (by norm_num) (by omega)
    linarith

theorem flPos_bounds {q : ℚ} (hq : 0 < q) :
    (2 : ℚ) ^ (Int.log 2 q) ≤ flPos q ∧ flPos q ≤ (2 : ℚ) ^ (Int.log 2 q + 1) := by
  have hlow : (2 : ℚ) ^ (Int.log 2 q) ≤ q := by
    have h := Int.zpow_log_le_self (b := 2) (R := ℚ) (by norm_num) hq
    simpa [Nat.cast_ofNat] using h
  have hhigh : q < (2 : ℚ) ^ (Int.log 2 q + 1) := by
    have h := Int.lt_zpow_succ_log_self (b := 2) (R := ℚ) (by norm_num) q
    simpa [Nat.cast_ofNat] using h
  have hpos : (0 : ℚ) < 2 ^ ((52 : ℤ) - Int.log 2 q) := by positivity
  have hpos2 : (0 : ℚ) < 2 ^ (Int.log 2 q - (52 : ℤ)) := by positivity
  have hmul_low : ((2 ^ 52 : ℤ) : ℚ) ≤ q * 2 ^ ((52 : ℤ) - Int.log 2 q) := by
    have hstep : (2 : ℚ) ^ (Int.log 2 q) * 2 ^ ((52 : ℤ) - Int.log 2 q)
        ≤ q * 2 ^ ((52 : ℤ) - Int.log 2 q) :=
      mul_le_mul_of_nonneg_right hlow (le_of_lt hpos)
    calc ((2 ^ 52 : ℤ) : ℚ) = (2 : ℚ) ^ (52 : ℤ) := by norm_num
      _ = (2 : ℚ) ^ (Int.log 2 q) * 2 ^ ((52 : ℤ) - Int.log 2 q) := by
          rw [← zpow_add₀ (by norm_num : (2 : ℚ) ≠ 0)]
          ring_nf
      _ ≤ q * 2 ^ ((52 : ℤ) - Int.log 2 q) := hstep
  have hmul_high : q * 2 ^ ((52 : ℤ) - Int.log 2 q) ≤ ((2 ^ 53 : ℤ) : ℚ) := by
    have hstep : q * 2 ^ ((52 : ℤ) - Int.log 2 q)
        ≤ (2 : ℚ) ^ (Int.log 2 q + 1) * 2 ^ ((52 : ℤ) - Int.log 2 q) :=
      mul_le_mul_of_nonneg_right (le_of_lt hhigh) (le_of_lt hpos)
    calc q * 2 ^ ((52 : ℤ) - Int.log 2 q)
        ≤ (2 : ℚ) ^ (Int.log 2 q + 1) * 2 ^ ((52 : ℤ) - Int.log 2 q) := hstep
      _ = (2 : ℚ) ^ (53 : ℤ) := by
          rw [← zpow_add₀ (by norm_num : (2 : ℚ) ≠ 0)]
          ring_nf
      _ = ((2 ^ 53 : ℤ) : ℚ) := by norm_num
  have hrlow : (2 ^ 52 : ℤ) ≤ rne (q * 2 ^ ((52 : ℤ) - Int.log 2 q)) :=
    le_rne_of_le hmul_low
  have hrhigh : rne (q * 2 ^ ((52 : ℤ) - Int.log 2 q)) ≤ (2 ^ 53 : ℤ) :=
    rne_le_of_le hmul_high
  constructor
  · have hcast : ((2 ^ 52 : ℤ) : ℚ) ≤ (rne (q * 2 ^ ((52 : ℤ) - Int.log 2 q)) : ℚ) :=
      Int.cast_le.2 hrlow
    calc (2 : ℚ) ^ (Int.log 2 q)
        = ((2 ^ 52 : ℤ) : ℚ) * 2 ^ (Int.log 2 q - (52 : ℤ)) := by
          rw [show ((2 ^ 52 : ℤ) : ℚ) = (2 : ℚ) ^ (52 : ℤ) from by norm_num,
            ← zpow_add₀ (by norm_num : (2 : ℚ) ≠ 0)]
          ring_nf
      _ ≤ (rne (q * 2 ^ ((52 : ℤ) - Int.log 2 q)) : ℚ) * 2 ^ (Int.log 2 q - (52 : ℤ)) :=
          mul_le_mul_of_nonneg_right hcast (le_of_lt hpos2)
      _ = flPos q := rfl
  · have hcast : (rne (q * 2 ^ ((52 : ℤ) - Int.log 2 q)) : ℚ) ≤ ((2 ^ 53 : ℤ) : ℚ) :=
      Int.cast_le.2 hrhigh
    calc flPos q
        = (rne (q * 2 ^ ((52 : ℤ) - Int.log 2 q)) : ℚ) * 2 ^ (Int.log 2 q - (52 : ℤ)) := rfl
      _ ≤ ((2 ^ 53 : ℤ) : ℚ) * 2 ^ (Int.log 2 q - (52 : ℤ)) :=
          mul_le_mul_of_nonneg_right hcast (le_of_lt hpos2)
      _ = (2 : ℚ) ^ (Int.log 2 q + 1) := by
          rw [show ((2 ^ 53 : ℤ) : ℚ) = (2 : ℚ) ^ (53 : ℤ) from by norm_num,
            ← zpow_add₀ (by norm_num : (2 : ℚ) ≠ 0)]
          ring_nf

theorem flPos_pos {q : ℚ} (hq : 0 < q) : 0 < flPos q :=
  lt_of_lt_of_le (by positivity) (flPos_bounds hq).1

theorem flPos_mono {a b : ℚ} (ha : 0 < a) (hab : a ≤ b) : flPos a ≤ flPos b := by
  have hb : 0 < b := lt_of_lt_of_le ha hab
  have hle : Int.log 2 a ≤ Int.log 2 b := Int.log_mono_right ha hab
  rcases eq_or_lt_of_le hle with heq | hlt
  · unfold flPos
    rw [← heq]
    have hpos : (0 : ℚ) < 2 ^ ((52 : ℤ) - Int.log 2 a) := by positivity
    have h1 : a * 2 ^ ((52 : ℤ) - Int.log 2 a) ≤ b * 2 ^ ((52 : ℤ) - Int.log 2 a) :=
      mul_le_mul_of_nonneg_right hab (le_of_lt hpos)
    have h2 : (rne (a * 2 ^ ((52 : ℤ) - Int.log 2 a)) : ℚ)
        ≤ (rne (b * 2 ^ ((52 : ℤ) - Int.log 2 a)) : ℚ) :=
      Int.cast_le.2 (rne_mono h1)
    exact mul_le_mul_of_nonneg_right h2 (by positivity)
  · calc flPos a ≤ (2 : ℚ) ^ (Int.log 2 a + 1) := (flPos_bounds ha).2
      _ ≤ (2 : ℚ) ^ (Int.log 2 b) := zpow_le_zpow_right₀ (by norm_num) (by omega)
      _ ≤ flPos b := (flPos_bounds hb).1

theorem flD_zero : flD 0 = 0 := by simp [flD]

theorem flD_nonneg_mono {a b : ℚ} (ha : 0 ≤ a) (hab : a ≤ b) : flD a ≤ flD b := by
  by_cases ha0 : a = 0
  · subst ha0
    rw [flD_zero]
    by_cases hb0 : b = 0
    · subst hb0
      rw [flD_zero]
    · have hb : 0 < b := lt_of_le_of_ne hab (Ne.symm hb0)
      unfold flD
      rw [if_neg hb0, if_pos hb]
      exact le_of_lt (flPos_pos hb)
  · have ha' : 0 < a := lt_of_le_of_ne ha (Ne.symm ha0)
    have hb : 0 < b := lt_of_lt_of_le ha' hab
    unfold flD
    rw [if_neg (ne_of_gt ha'), if_pos ha', if_neg (ne_of_gt hb), if_pos hb]
    exact flPos_mono ha' hab

theorem flD_nonneg {q : ℚ} (h : 0 ≤ q) : 0 ≤ flD q := by
  have hm := flD_nonneg_mono (le_refl 0) h
  rwa [flD_zero] at hm

theorem flD_one : flD 1 = 1 := by
  unfold flD flPos
  rw [if_neg one_ne_zero, if_pos one_pos, Int.log_one_right]
  have harg : (1 : ℚ) * 2 ^ ((52 : ℤ) - 0) = ((2 ^ 52 : ℤ) : ℚ) := by norm_num
  rw [harg, rne_intCast]
  norm_num

theorem flD_fifty : flD 50 = 50 := by
  unfold flD flPos
  rw [if_neg (by norm_num), if_pos (by norm_num)]
  rw [show Int.log 2 (50 : ℚ) = 5 from log2_eq_of (by norm_num) (by norm_num)]
  have harg : (50 : ℚ) * 2 ^ ((52 : ℤ) - 5) = ((50 * 2 ^ 47 : ℤ) : ℚ) := by norm_num
  rw [harg, rne_intCast]
  norm_num

theorem flD_le_one {q : ℚ} (h0 : 0 ≤ q) (h1 : q ≤ 1) : flD q ≤ 1 := by
  have hm := flD_nonneg_mono h0 h1
  rwa [flD_one] at hm

theorem truncQ_of_nonneg {q : ℚ} (h : 0 ≤ q) : truncQ q = ⌊q⌋ := by
  unfold truncQ
  rw [if_pos h]

theorem pyPercent_nonneg (w : ℕ) {m : ℤ} (hm : 0 < m) : 0 ≤ pyPercent w m := by
  unfold pyPercent
  have hq : (0 : ℚ) ≤ (w : ℚ) / (m : ℚ) := by positivity
  have h1 : 0 ≤ flD ((w : ℚ) / (m : ℚ)) := flD_nonneg hq
  have h2 : (0 : ℚ) ≤ flD ((w : ℚ) / (m : ℚ)) * 50 := by positivity
  have h3 : 0 ≤ flD (flD ((w : ℚ) / (m : ℚ)) * 50) := flD_nonneg h2
  rw [truncQ_of_nonneg h3]
  exact Int.floor_nonneg.2 h3

theorem pyPercent_le_fifty {w : ℕ} {m : ℤ} (hm : 0 < m) (hwm : (w : ℤ) ≤ m) :
    pyPercent w m ≤ 50 := by
  unfold pyPercent
  have hmq : (0 : ℚ) < (m : ℚ) := by exact_mod_cast hm
  have hq1 : (w : ℚ) / (m : ℚ) ≤ 1 := by
    rw [div_le_one hmq]
    exact_mod_cast hwm
  have hq0 : (0 : ℚ) ≤ (w : ℚ) / (m : ℚ) := by positivity
  have h1 : flD ((w : ℚ) / (m : ℚ)) ≤ 1 := flD_le_one hq0 hq1
  have h1' : 0 ≤ flD ((w : ℚ) / (m : ℚ)) := flD_nonneg hq0
  have h2 : flD ((w : ℚ) / (m : ℚ)) * 50 ≤ 50 := by linarith
  have h2' : (0 : ℚ) ≤ flD ((w : ℚ) / (m : ℚ)) * 50 := by positivity
  have h3 : flD (flD ((w : ℚ) / (m : ℚ)) * 50) ≤ 50 := by
    have hm50 := flD_nonneg_mono h2' h2
    rwa [flD_fifty] at hm50
  rw [truncQ_of_nonneg (flD_nonneg h2')]
  have hfl : ⌊flD (flD ((w : ℚ) / (m : ℚ)) * 50)⌋ ≤ ⌊(50 : ℚ)⌋ := Int.floor_mono h3
  simpa using hfl

theorem pyPercent_mono {m : ℤ} (hm : 0 < m) {w1 w2 : ℕ} (h : w1 ≤ w2) :
    pyPercent w1 m ≤ pyPercent w2 m := by
  unfold pyPercent
  have hw : (w1 : ℚ) ≤ (w2 : ℚ) := by exact_mod_cast h
  have hq : (w1 : ℚ) / (m : ℚ) ≤ (w2 : ℚ) / (m : ℚ) := by
    rw [div_eq_mul_inv, div_eq_mul_inv]
    exact mul_le_mul_of_nonneg_right hw (by positivity)
  have hq0 : (0 : ℚ) ≤ (w1 : ℚ) / (m : ℚ) := by positivity
  have h1 : flD ((w1 : ℚ) / (m : ℚ)) ≤ flD ((w2 : ℚ) / (m : ℚ)) :=
    flD_nonneg_mono hq0 hq
  have h1' : 0 ≤ flD ((w1 : ℚ) / (m : ℚ)) := flD_nonneg hq0
  have h2 : flD ((w1 : ℚ) / (m : ℚ)) * 50 ≤ flD ((w2 : ℚ) / (m : ℚ)) * 50 := by
    linarith
  have h2' : (0 : ℚ) ≤ flD ((w1 : ℚ) / (m : ℚ)) * 50 := by positivity
  have h3 := flD_nonneg_mono h2' h2
  rw [truncQ_of_nonneg (flD_nonneg h2'),
    truncQ_of_nonneg (flD_nonneg (le_trans h2' h2))]
  exact Int.floor_mono h3

theorem pyPercent_max {w : ℕ} {m : ℤ} (hm : 0 < m) (hwm : (w : ℤ) = m) :
    pyPercent w m = 50 := by
  unfold pyPercent
  have hm0 : (m : ℚ) ≠ 0 := by
    exact_mod_cast ne_of_gt hm
  have hq : (w : ℚ) / (m : ℚ) = 1 := by
    rw [show ((w : ℚ)) = ((m : ℚ)) from by exact_mod_cast hwm]
    exact div_self hm0
  rw [hq, flD_one, one_mul, flD_fifty, truncQ_of_nonneg (by norm_num)]
  norm_num

theorem pyPercent_29_50 : pyPercent 29 50 = 28 := by
  unfold pyPercent
  have hq : ((29 : ℕ) : ℚ) / ((50 : ℤ) : ℚ) = 29 / 50 := by norm_num
  rw [hq]
  have hlog1 : Int.log 2 ((29 : ℚ) / 50) = -1 :=
    log2_eq_of (by norm_num) (by norm_num)
  have hfl1 : flD ((29 : ℚ) / 50) = 5224175567749775 / 2 ^ 53 := by
    unfold flD
    rw [if_neg (by norm_num), if_pos (by norm_num)]
    unfold flPos
    rw [hlog1]
    have harg : (29 : ℚ) / 50 * 2 ^ ((52 : ℤ) - (-1)) = 261208778387488768 / 50 := by
      norm_num
    rw [harg, rne_eq_of (n := 5224175567749775) (by norm_num) (by norm_num)]
    norm_num
  rw [hfl1]
  have hval : (5224175567749775 : ℚ) / 2 ^ 53 * 50 = 130604389193744375 / 2 ^ 52 := by
    norm_num
  rw [hval]
  have hlog2 : Int.log 2 ((130604389193744375 : ℚ) / 2 ^ 52) = 4 :=
    log2_eq_of (by norm_num) (by norm_num)
  have hfl2 : flD ((130604389193744375 : ℚ) / 2 ^ 52) = 8162774324609023 / 2 ^ 48 := by
    unfold flD
    rw [if_neg (by norm_num), if_pos (by norm_num)]
    unfold flPos
    rw [hlog2]
    have harg : (130604389193744375 : ℚ) / 2 ^ 52 * 2 ^ ((52 : ℤ) - 4)
        = 130604389193744375 / 16 := by norm_num
    rw [harg, rne_eq_of (n := 8162774324609023) (by norm_num) (by norm_num)]
    norm_num
  rw [hfl2, truncQ_of_nonneg (by positivity)]
  exact Int.floor_eq_iff.2 ⟨by norm_num, by norm_num⟩

theorem countAllWordsGo_bound :
    ∀ (files : List ChapterFile) (acc : WCResult),
      (∀ cv ∈ acc.entries, (cv.2.2 : ℤ) ≤ acc.maxwords) →
      ∀ cv ∈ (countAllWordsGo files acc).entries,
        (cv.2.2 : ℤ) ≤ (countAllWordsGo files acc).maxwords := by
  intro files
  induction files with
  | nil => intro acc h; exact h
  | cons f fs ih =>
      intro acc h
      apply ih
      intro cv hcv
      rcases dictUpd_mem hcv with rfl | hold
      · show ((count_words f.lines : Nat) : ℤ) ≤ _
        simp only []
        split <;> omega
      · have hb := h cv hold
        show (cv.2.2 : ℤ) ≤ _
        simp only []
        split <;> omega

theorem count_all_words_bound (files : List ChapterFile) :
    ∀ cv ∈ (count_all_words files).entries,
      (cv.2.2 : ℤ) ≤ (count_all_words files).maxwords :=
  countAllWordsGo_bound files { entries := [], maxwords := -1 } (by simp)

/-- C3 (amended): each stored percent is the binary64 evaluation
`int(words / maxwords * 50)` — division and multiplication each rounded to
nearest — which can be one below the exact `floor(words / maxWords * 50)`
(see the counterexample at words 29, maxWords 50); it still lies in
`[0, 50]`, is monotone non-decreasing in words for fixed maxWords, and a
node whose words equal maxWords gets exactly 50. -/
theorem c3_percent (files : List ChapterFile) (toc : List Record)
    (lut : List (String × Entry))
    (hmax : 0 < (count_all_words files).maxwords)
    (hlut : generate_lut (count_all_words files).entries
      (count_all_words files).maxwords toc = some lut) :
    (∀ kv ∈ lut,
      kv.2.percent = pyPercent kv.2.words (count_all_words files).maxwords ∧
      0 ≤ kv.2.percent ∧ kv.2.percent ≤ 50 ∧
      ((kv.2.words : ℤ) = (count_all_words files).maxwords →
        kv.2.percent = 50)) ∧
    (∀ w1 w2 : ℕ, w1 ≤ w2 →
      pyPercent w1 (count_all_words files).maxwords
        ≤ pyPercent w2 (count_all_words files).maxwords) := by
  have hok := generateLutGo_entries toc [] lut hlut (by simp)
  constructor
  · intro kv hkv
    obtain ⟨hnum, fw, hfw, hwords, hperc⟩ := hok kv hkv
    have hpp : kv.2.percent = pyPercent kv.2.words (count_all_words files).maxwords := by
      rw [hperc, hwords]
    have hwb : (kv.2.words : ℤ) ≤ (count_all_words files).maxwords := by
      have hmem := dictFind_mem hfw
      have hb := count_all_words_bound files (kv.2.caption, fw) hmem
      rw [hwords]
      exact hb
    refine ⟨hpp, ?_, ?_, ?_⟩
    · rw [hpp]
      exact pyPercent_nonneg _ hmax
    · rw [hpp]
      exact pyPercent_le_fifty hmax hwb
    · intro hw
      rw [hpp]
      exact pyPercent_max hmax hw
  · intro w1 w2 h
    exact pyPercent_mono hmax h

/-- Two chapter files: one of 50 words (the maximum) and one of 29. -/
def c3files : List ChapterFile :=
  [⟨"a.tex", "A", ["a a a a a a a a a a a a a a a a a a a a a a a a a a a a a a a a a a a a a a a a a a a a a a a a a a"]⟩,
   ⟨"b.tex", "B", ["b b b b b b b b b b b b b b b b b b b b b b b b b b b b b"]⟩]

/-- The outline for the two chapters. -/
def c3toc : List Record := [⟨"chapter", "1", "A", 1⟩, ⟨"chapter", "2", "B", 2⟩]

/-- Modelled from the spec: the exact mathematical
`floor(words / maxWords * 50)` the claim asserts. -/
def specFloorPercent (w : ℕ) (m : ℤ) : ℤ := ⌊(w : ℚ) * 50 / (m : ℚ)⌋

/-- C3 is false as stated: with maxWords 50, the node with 29 words is
stored with percent 28, while `floor(29 / 50 * 50) = 29` — CPython
evaluates `29 / 50 * 50` in binary64 as `28.999999999999996...`, and
`int()` truncates it. -/
theorem c3_percent_counterexample :
    (count_all_words c3files).maxwords = 50 ∧
    generate_lut (count_all_words c3files).entries
        (count_all_words c3files).maxwords c3toc
      = some [("1", ⟨"1", "A", 1, 50, 50⟩), ("2", ⟨"2", "B", 2, 29, 28⟩)] ∧
    specFloorPercent 29 50 = 29 ∧
    (28 : ℤ) ≠ specFloorPercent 29 50 := by
  have hcw : count_all_words c3files
      = ⟨[("A", ("a.tex", 50)), ("B", ("b.tex", 29))], 50⟩ := by decide
  refine ⟨by rw [hcw], ?_, ?_, ?_⟩
  · rw [hcw]
    have h5050 : pyPercent 50 50 = 50 := pyPercent_max (by norm_num) (by norm_num)
    simp [generate_lut, generateLutGo, dictFind, dictUpd, dictHasKey, h5050,
      pyPercent_29_50]
  · show ⌊(29 : ℚ) * 50 / ((50 : ℤ) : ℚ)⌋ = 29
    norm_num
  · show (28 : ℤ) ≠ ⌊(29 : ℚ) * 50 / ((50 : ℤ) : ℚ)⌋
    norm_num

/-- One chapter file of one word, giving maxWords 1. -/
def c3wfiles : List ChapterFile := [⟨"a.tex", "A", ["hello"]⟩]

/-- Concrete run of the amended percent properties on a one-chapter
outline whose single node carries the maximal word count. -/
theorem c3_percent_witness :
    (∀ kv ∈ [("1", (⟨"1", "A", 1, 1, 50⟩ : Entry))],
      kv.2.percent = pyPercent kv.2.words (count_all_words c3wfiles).maxwords ∧
      0 ≤ kv.2.percent ∧ kv.2.percent ≤ 50 ∧
      ((kv.2.words : ℤ) = (count_all_words c3wfiles).maxwords →
        kv.2.percent = 50)) ∧
    (∀ w1 w2 : ℕ, w1 ≤ w2 →
      pyPercent w1 (count_all_words c3wfiles).maxwords
        ≤ pyPercent w2 (count_all_words c3wfiles).maxwords) :=
  c3_percent c3wfiles [⟨"chapter", "1", "A", 1⟩]
    [("1", ⟨"1", "A", 1, 1, 50⟩)] (by decide) (by
      have hcw : count_all_words c3wfiles = ⟨[("A", ("a.tex", 1))], 1⟩ := by decide
      have h11 : pyPercent 1 1 = 50 := pyPercent_max (by norm_num) (by norm_num)
      rw [hcw]
      simp [generate_lut, generateLutGo, dictFind, dictUpd, dictHasKey, h11])

end LatexStats
